import Mathlib

/-!
Verification of the reactive i18n store in src/svelte-tiny-i18n.ts.

JavaScript values are shallowly embedded: objects and Maps become
association lists over String (iteration order = insertion order,
Map.set overwrites in place), null/undefined become Option or an
explicit JSVal constructor, and the observable-store primitive is
modelled per the specification's interface contract (every write is
delivered synchronously to all subscribers).
-/

namespace TinyI18n

/-- Association-list lookup, modelling JavaScript Map.get / object
indexing: the first matching key wins (keys are unique for lists built
by alSet, matching Map semantics). None models undefined/null. -/
def alGet {α : Type} (m : List (String × α)) (k : String) : Option α :=
  match m with
  | [] => none
  | (k', v) :: rest => if k' = k then some v else alGet rest k

/-- Association-list update, modelling JavaScript Map.set: overwrite in
place when the key exists, otherwise append at the end. -/
def alSet {α : Type} (m : List (String × α)) (k : String) (v : α) : List (String × α) :=
  match m with
  | [] => [(k, v)]
  | (k', v') :: rest => if k' = k then (k', v) :: rest else (k', v') :: alSet rest k v

/-- Map.has. -/
def alHas {α : Type} (m : List (String × α)) (k : String) : Bool :=
  (alGet m k).isSome

/-- Array.prototype.includes on string arrays. -/
def includes (ls : List String) (s : String) : Bool :=
  ls.any (fun x => x = s)

/-- First-some choice on options (used to phrase override semantics). -/
def orElseOpt {α : Type} (a b : Option α) : Option α :=
  match a with
  | some v => some v
  | none => b

/-- A JavaScript value readable off a replacements record
(Record<string, string | number>): the caller's strings and numbers,
the null/undefined values the translator's callback explicitly tests
for, and the values a plain property read can pull off the record's
Object.prototype chain — the prototype object itself (through the
Annex-B proto accessor) and the built-in function members, carried by
their function name. Numbers are modelled as integers (the spec's only
numeric requirement is that zero substitutes as "0"). -/
inductive JSVal where
  | str : String → JSVal
  | num : Int → JSVal
  | nullVal : JSVal
  | undefinedVal : JSVal
  | protoObj : JSVal
  | nativeFn : String → JSVal
deriving DecidableEq, Repr

/-- JavaScript String(value) on a JSVal. String(Object.prototype) is
fixed by ECMAScript as the object-Object text; the source text of a
built-in function is implementation-defined, modelled here as the
native-function text that the major engines (V8, JavaScriptCore,
SpiderMonkey) all produce. -/
def jsString : JSVal → String
  | .str s => s
  | .num n => toString n
  | .nullVal => "null"
  | .undefinedVal => "undefined"
  | .protoObj => "[object Object]"
  | .nativeFn name => "function " ++ name ++ "() \x7b [native code] \x7d"

/-- The function-valued own members of Object.prototype (ES2023
section 20.1.3 plus Annex B section B.2.2), every one inherited by a
plain replacements record. -/
def protoFnMembers : List String :=
  ["constructor", "hasOwnProperty", "isPrototypeOf", "propertyIsEnumerable",
   "toLocaleString", "toString", "valueOf",
   "__defineGetter__", "__defineSetter__", "__lookupGetter__", "__lookupSetter__"]

/-- The JavaScript property read replacements[key]: an own entry wins;
otherwise the read walks the prototype chain of the plain record, where
Object.prototype supplies the proto accessor (reading it on the record
yields Object.prototype itself) and its built-in function members (the
constructor member is the Object function, the rest are functions of
the member's own name); any other name reads as undefined. -/
def jsIndex (repl : List (String × JSVal)) (key : String) : JSVal :=
  match alGet repl key with
  | some v => v
  | none =>
    if key = "__proto__" then JSVal.protoObj
    else if key = "constructor" then JSVal.nativeFn "Object"
    else if includes protoFnMembers key then JSVal.nativeFn key
    else JSVal.undefinedVal

/-- The replacement callback from t, embedded verbatim:
const value = replacements[key];
return value !== undefined && value !== null ? String(value) : match;
where the indexing is the prototype-walking property read jsIndex. -/
def replCallback (repl : List (String × JSVal)) (matchText : List Char)
    (name : List Char) : List Char :=
  match jsIndex repl (String.mk name) with
  | JSVal.undefinedVal => matchText
  | JSVal.nullVal => matchText
  | v => (jsString v).data

/-- One-pass scanner embedding
translation.replace(/\x7b([^\x7b\x7d]+)\x7d/g, callback):
leftmost-match global replacement for that regex. The state is the
pending open brace: none = outside any candidate placeholder, some acc
= an open brace was read and acc holds the (reversed) brace-free name
characters read so far. -/
def scanAux (repl : List (String × JSVal)) :
    Option (List Char) → List Char → List Char
  | none, [] => []
  | some acc, [] => '{' :: acc.reverse
  | none, c :: rest =>
    if c = '{' then scanAux repl (some []) rest
    else c :: scanAux repl none rest
  | some acc, c :: rest =>
    if c = '}' then
      if acc.isEmpty then '{' :: '}' :: scanAux repl none rest
      else replCallback repl ('{' :: acc.reverse ++ ['}']) acc.reverse
             ++ scanAux repl none rest
    else if c = '{' then '{' :: acc.reverse ++ scanAux repl (some []) rest
    else scanAux repl (some (c :: acc)) rest

/-- The placeholder-substitution pass of t on a template's characters. -/
def substitute (repl : List (String × JSVal)) (s : List Char) : List Char :=
  scanAux repl none s

/-- Spec-side token: a template decomposes into literal characters and
placeholder tokens of the form \x7bname\x7d. -/
inductive Tok where
  | lit : Char → Tok
  | ph : List Char → Tok
deriving DecidableEq, Repr

/-- Spec-side tokenizer: decomposes a template into literal characters
and placeholder tokens, with the same leftmost scan as the regex. -/
def tokenizeAux : Option (List Char) → List Char → List Tok
  | none, [] => []
  | some acc, [] => Tok.lit '{' :: acc.reverse.map Tok.lit
  | none, c :: rest =>
    if c = '{' then tokenizeAux (some []) rest
    else Tok.lit c :: tokenizeAux none rest
  | some acc, c :: rest =>
    if c = '}' then
      if acc.isEmpty then Tok.lit '{' :: Tok.lit '}' :: tokenizeAux none rest
      else Tok.ph acc.reverse :: tokenizeAux none rest
    else if c = '{' then
      Tok.lit '{' :: acc.reverse.map Tok.lit ++ tokenizeAux (some []) rest
    else tokenizeAux (some (c :: acc)) rest

def tokenize (s : List Char) : List Tok :=
  tokenizeAux none s

/-- Spec-side rendering of one token, in the amended spec wording: a
placeholder whose name has an own entry in the replacements mapping
that is neither null nor undefined is replaced by the string form of
that entry's value; a placeholder with no own entry whose name is a
member of Object.prototype is replaced by the string form of the
inherited member; every other placeholder stays verbatim, braces
included. Literal characters pass through unchanged. -/
def renderTok (repl : List (String × JSVal)) : Tok → List Char
  | Tok.lit c => [c]
  | Tok.ph name =>
    match alGet repl (String.mk name) with
    | some JSVal.nullVal => '{' :: name ++ ['}']
    | some JSVal.undefinedVal => '{' :: name ++ ['}']
    | some v => (jsString v).data
    | none =>
      if String.mk name = "__proto__" then (jsString JSVal.protoObj).data
      else if String.mk name = "constructor" then
        (jsString (JSVal.nativeFn "Object")).data
      else if includes protoFnMembers (String.mk name) then
        (jsString (JSVal.nativeFn (String.mk name))).data
      else '{' :: name ++ ['}']

/-- Inverse of tokenization: the source text a token stands for. -/
def detok : Tok → List Char
  | Tok.lit c => [c]
  | Tok.ph name => '{' :: name ++ ['}']

/-- The pending text represented by a scanner state. -/
def pendingText : Option (List Char) → List Char
  | none => []
  | some acc => '{' :: acc.reverse

/-- One PartialTranslationEntryMap object: translation key to partial
per-locale record, in property order. -/
abbrev PartialEntryMap : Type := List (String × List (String × String))

/-- The full translation table Map<Locale, Map<Key, String>>. -/
abbrev Table : Type := List (String × List (String × String))

/-- makeTranslation from the source: initialize one empty map per
supported locale, then walk the entry array, each entry's keys, and
each key's per-locale pairs in order, storing a pair only when its
locale already has a map (i.e. is supported). -/
def makeTranslation (supportedLocales : List String)
    (kv_pair : List PartialEntryMap) : Table :=
  kv_pair.foldl
    (fun result entry =>
      entry.foldl
        (fun result kp =>
          kp.2.foldl
            (fun result lp =>
              if alHas result lp.1 then
                alSet result lp.1 (alSet ((alGet result lp.1).getD []) kp.1 lp.2)
              else result)
            result)
        result)
    (supportedLocales.foldl (fun r lang => alSet r lang []) [])

/-- The merge loop of extendTranslations from the source: build the new
map with makeTranslation, then for each of its locales set every
(key, value) pair into that locale's existing map. -/
def extendTable (supportedLocales : List String) (translations : Table)
    (newTranslations : List PartialEntryMap) : Table :=
  (makeTranslation supportedLocales newTranslations).foldl
    (fun tr entry =>
      entry.2.foldl
        (fun tr p => alSet tr entry.1 (alSet ((alGet tr entry.1).getD []) p.1 p.2))
        tr)
    translations

/-- Observable lookup in a table: the stored string for a (locale, key)
pair, if any. -/
def tableGet (t : Table) (lang key : String) : Option String :=
  (alGet t lang).bind (fun inner => alGet inner key)

/-- Spec-side: the batches flattened to (key, locale, value) triples in
processing order (batch order, then entry order, then per-locale pair
order). -/
def flatten (batches : List PartialEntryMap) : List (String × String × String) :=
  batches.flatMap (fun entry =>
    entry.flatMap (fun kp => kp.2.map (fun lp => (kp.1, lp.1, lp.2))))

/-- Spec-side: the last value assigned to (locale l, key k) by a triple
sequence, starting from init; later triples override earlier ones. -/
def lastAssignFrom (ts : List (String × String × String)) (l k : String)
    (init : Option String) : Option String :=
  ts.foldl (fun acc t => if t.2.1 = l ∧ t.1 = k then some t.2.2 else acc) init

/-- The effect of one (key, locale, value) triple in makeTranslation:
store it only when the locale's map already exists. -/
def applyTriple (T : Table) (t : String × String × String) : Table :=
  if alHas T t.2.1 then
    alSet T t.2.1 (alSet ((alGet T t.2.1).getD []) t.1 t.2.2)
  else T

/-- The effect of one triple in the extendTranslations merge loop: store
unconditionally (the source asserts the locale map exists with !). -/
def applyTripleForce (T : Table) (t : String × String × String) : Table :=
  alSet T t.2.1 (alSet ((alGet T t.2.1).getD []) t.1 t.2.2)

/-- The empty per-locale maps created before any input is read. -/
def initTable (supportedLocales : List String) : Table :=
  supportedLocales.foldl (fun r lang => alSet r lang []) []

/-- The (key, locale, value) triples stored in a table, in its own
iteration order (locale-major). -/
def enumTriples (M : Table) : List (String × String × String) :=
  M.flatMap (fun e => e.2.map (fun p => (p.1, e.1, p.2)))

/-- Well-formedness of a table as built by the library: unique locale
keys, and unique translation keys inside every sub-map. -/
def TableWF (T : Table) : Prop :=
  (T.map Prod.fst).Nodup ∧ ∀ p ∈ T, (p.2.map Prod.fst).Nodup

/-- The browser-side services getInitLocale reads: localStorage contents,
navigator.languages (none = undefined; some list may be empty and is
still truthy) and navigator.language (none = undefined). A headless
(SSR) run is modelled by the whole environment being absent. -/
structure BrowserEnv where
  storage : List (String × String)
  languages : Option (List String)
  language : Option String

/-- lang.split with a dash, first component. -/
def baseOf (lang : String) : String :=
  (lang.splitOn "-").headD ""

/-- The full/base matching loop over the preferred-language tags, from
the source: for each tag in order try the exact tag, then its base
subtag, before moving on. -/
def firstLoop (sup : List String) : List String → Option String
  | [] => none
  | lang :: rest =>
    if includes sup lang then some lang
    else if includes sup (baseOf lang) then some (baseOf lang)
    else firstLoop sup rest

/-- getInitLocale from the source. Headless: defaultLocale. Otherwise:
a truthy stored value that is supported wins; else navigator.languages
(if defined, even empty) or a truthy navigator.language provides the
preference list scanned by firstLoop; else defaultLocale. -/
def getInitLocale (sup : List String) (defaultLocale localStorageKey : String)
    (env : Option BrowserEnv) : String :=
  match env with
  | none => defaultLocale
  | some e =>
    let preferredLangs : List String :=
      match e.languages with
      | some ls => ls
      | none =>
        match e.language with
        | some l => if l = "" then [] else [l]
        | none => []
    let fallback : String :=
      match firstLoop sup preferredLangs with
      | some r => r
      | none => defaultLocale
    match alGet e.storage localStorageKey with
    | some storedLang =>
      if storedLang ≠ "" ∧ includes sup storedLang then storedLang else fallback
    | none => fallback

/-- Modelled from the spec (section 4.1): one tag's full-then-base
match. -/
def specMatchTag (sup : List String) (tag : String) : Option String :=
  if includes sup tag then some tag
  else if includes sup (baseOf tag) then some (baseOf tag)
  else none

/-- Modelled from the spec (section 4.1, step 3): first tag with either
form of match wins. -/
def specFirstMatch (sup : List String) : List String → Option String
  | [] => none
  | tag :: rest => orElseOpt (specMatchTag sup tag) (specFirstMatch sup rest)

/-- Modelled from the spec (section 4.1): the resolver's strict priority
order. Step 1 headless short-circuit; step 2 persisted non-empty
supported value; step 3 the ordered preferred list, full before base per
tag; step 4 the single preferred language (present = non-empty) when no
list exists; step 5 the default. -/
def resolveSpec (sup : List String) (defaultLocale localStorageKey : String) :
    Option BrowserEnv → String
  | none => defaultLocale
  | some env =>
    let step2 : Option String :=
      match alGet env.storage localStorageKey with
      | some s => if s ≠ "" ∧ includes sup s then some s else none
      | none => none
    let step34 : Option String :=
      match env.languages with
      | some tags => specFirstMatch sup tags
      | none =>
        match env.language with
        | some l => if l ≠ "" then specMatchTag sup l else none
        | none => none
    (orElseOpt step2 step34).getD defaultLocale

/-- The translation function produced by the derived store t, reading
the current sub-table view: missing key falls back to the key itself,
then the optional replacements drive one regex substitution pass. -/
def tFun (view : List (String × String)) (key : String)
    (replacements : Option (List (String × JSVal))) : String :=
  let translation : String :=
    match alGet view key with
    | some s => s
    | none => key
  match replacements with
  | some repl => String.mk (substitute repl translation.data)
  | none => translation

/-- Diagnostics emitted through console.warn by setLocale. -/
inductive Diag where
  | emptyLang : Diag
  | unsupportedLang : String → List String → Diag
deriving DecidableEq, Repr

/-- The store's configuration (I18nConfig). -/
structure Config where
  supportedLocales : List String
  defaultLocale : String
  initialTranslations : List PartialEntryMap
  localStorageKey : String
  devLogs : Bool

/-- The mutable state owned by one createI18nStore instance: the
translations table, the locale cell's value, the _t cell's value (none
models the undefined that translations.get produces for an absent
locale), the persisted storage, and the log of values delivered to
locale subscribers (one entry per delivery, per the spec's synchronous
store contract). -/
structure StoreState where
  translations : Table
  localeVal : String
  view : Option (List (String × String))
  storage : List (String × String)
  localeLog : List String
deriving Repr

/-- The callback registered by locale.subscribe at construction: refresh
the view when the written locale has a sub-table, then persist
unconditionally when in a browser. -/
def subscriberBody (cfg : Config) (browser : Bool) (st : StoreState)
    (lang : String) : StoreState :=
  let st1 : StoreState :=
    if alHas st.translations lang then { st with view := alGet st.translations lang }
    else st
  if browser then { st1 with storage := alSet st1.storage cfg.localStorageKey lang }
  else st1

/-- Synchronous delivery of a locale value to the subscribers (the
construction-time subscriber runs subscriberBody; the delivery itself is
recorded in localeLog). -/
def notifyLocale (cfg : Config) (browser : Bool) (st : StoreState)
    (lang : String) : StoreState :=
  subscriberBody cfg browser { st with localeLog := st.localeLog ++ [lang] } lang

/-- locale.set under the spec's store contract: store the value, then
deliver it to every subscriber. This is the raw, non-validating write
path. -/
def localeSet (cfg : Config) (browser : Bool) (st : StoreState)
    (lang : String) : StoreState :=
  notifyLocale cfg browser { st with localeVal := lang } lang

/-- setLocale from the source. The argument none models both null and
undefined. Returns the new state and the diagnostics emitted. -/
def setLocale (cfg : Config) (browser : Bool) (st : StoreState)
    (lang : Option String) : StoreState × List Diag :=
  match lang with
  | none => (st, [])
  | some l =>
    if l = "" then (st, if cfg.devLogs then [Diag.emptyLang] else [])
    else if includes cfg.supportedLocales l then (localeSet cfg browser st l, [])
    else (st, if cfg.devLogs then [Diag.unsupportedLang l cfg.supportedLocales] else [])

/-- extendTranslations from the source: merge the new batches into the
table, then locale.update writes the unchanged locale value back; the
update callback first sets _t to translations.get(lang) — which is
undefined when the current locale has no sub-table — and the write then
re-notifies the locale subscribers. -/
def extendTranslations (cfg : Config) (browser : Bool) (st : StoreState)
    (newTranslations : List PartialEntryMap) : StoreState :=
  let T : Table := extendTable cfg.supportedLocales st.translations newTranslations
  let st1 : StoreState := { st with translations := T, view := alGet T st.localeVal }
  localeSet cfg browser st1 st.localeVal

/-- Store construction: build the table, resolve the initial locale,
initialize the cells (_t starts at translations.get(initialLanguage)),
and run the construction-time subscription, which immediately delivers
the current value. -/
def initState (cfg : Config) (env : Option BrowserEnv) : StoreState :=
  let T : Table := makeTranslation cfg.supportedLocales cfg.initialTranslations
  let l0 : String :=
    getInitLocale cfg.supportedLocales cfg.defaultLocale cfg.localStorageKey env
  let st0 : StoreState :=
    { translations := T
      localeVal := l0
      view := alGet T l0
      storage := match env with | some e => e.storage | none => []
      localeLog := [] }
  notifyLocale cfg env.isSome st0 l0

/-- Calling the current translation function: reading a key off an
undefined view is a JavaScript TypeError, modelled as an error result;
otherwise tFun computes the returned string. -/
def tCall (st : StoreState) (key : String)
    (replacements : Option (List (String × JSVal))) : Except Unit String :=
  match st.view with
  | none => Except.error ()
  | some v => Except.ok (tFun v key replacements)

/-- The operations a caller can perform after construction. -/
inductive Action where
  | set : Option String → Action
  | write : String → Action
  | extend : List PartialEntryMap → Action

/-- Run a sequence of caller actions (setLocale calls, raw locale
writes, extendTranslations calls) against the store. -/
def runActions (cfg : Config) (browser : Bool) : StoreState → List Action → StoreState
  | st, [] => st
  | st, Action.set l :: rest => runActions cfg browser (setLocale cfg browser st l).1 rest
  | st, Action.write l :: rest => runActions cfg browser (localeSet cfg browser st l) rest
  | st, Action.extend bs :: rest =>
    runActions cfg browser (extendTranslations cfg browser st bs) rest

/-- A concrete store configuration used by the closed witnesses. -/
def cfgEx : Config :=
  { supportedLocales := ["en", "es"]
    defaultLocale := "en"
    initialTranslations := [[("hello", [("en", "Hello"), ("es", "Hola")])]]
    localStorageKey := "lang"
    devLogs := true }

/-- A concrete headless store state used by the closed witnesses. -/
def stEx : StoreState := initState cfgEx none

example : substitute [("name", JSVal.str "World")] "Hello, {name}!".data
    = "Hello, World!".data := by decide

example : substitute [("num", JSVal.num 0)] "Items: {num}".data
    = "Items: 0".data := by decide

example : substitute [("wrong", JSVal.str "x")] "Welcome, {name}!".data
    = "Welcome, {name}!".data := by decide

example : substitute [("name", JSVal.nullVal)] "Hi {name}".data
    = "Hi {name}".data := by decide

example : substitute [("a", JSVal.str "{b}"), ("b", JSVal.str "X")] "{a}".data
    = "{b}".data := by decide

example : substitute [] "\x7btoString\x7d".data
    = "function toString() \x7b [native code] \x7d".data := by decide

example : substitute [("toString", JSVal.str "T")] "\x7btoString\x7d".data
    = "T".data := by decide

example : substitute [] "\x7bconstructor\x7d".data
    = "function Object() \x7b [native code] \x7d".data := by decide

lemma replCallback_eq_renderTok (repl : List (String × JSVal)) (name : List Char) :
    replCallback repl ('{' :: (name ++ ['}'])) name = renderTok repl (Tok.ph name) := by
  cases h : alGet repl (String.mk name) with
  | none =>
    simp only [replCallback, jsIndex, renderTok, h]
    by_cases h1 : String.mk name = "__proto__"
    · simp [h1]
    · by_cases h2 : String.mk name = "constructor"
      · simp [h1, h2]
      · by_cases h3 : includes protoFnMembers (String.mk name) <;> simp [h1, h2, h3]
  | some v => cases v <;> simp [replCallback, jsIndex, renderTok, h]

lemma flatMap_renderTok_lit (repl : List (String × JSVal)) (l : List Char) :
    (l.map Tok.lit).flatMap (renderTok repl) = l := by
  induction l with
  | nil => simp
  | cons c rest ih => simp [renderTok, ih]

lemma flatMap_renderTok_lit_rev (repl : List (String × JSVal)) (l : List Char) :
    (l.map Tok.lit).reverse.flatMap (renderTok repl) = l.reverse := by
  rw [← List.map_reverse]
  exact flatMap_renderTok_lit repl l.reverse

lemma flatMap_detok_lit (l : List Char) :
    (l.map Tok.lit).flatMap detok = l := by
  induction l with
  | nil => simp
  | cons c rest ih => simp [detok, ih]

lemma flatMap_detok_lit_rev (l : List Char) :
    (l.map Tok.lit).reverse.flatMap detok = l.reverse := by
  rw [← List.map_reverse]
  exact flatMap_detok_lit l.reverse

lemma scanAux_eq_render (repl : List (String × JSVal)) :
    ∀ (s : List Char) (st : Option (List Char)),
      scanAux repl st s = (tokenizeAux st s).flatMap (renderTok repl) := by
  intro s
  induction s with
  | nil =>
    intro st
    cases st with
    | none => simp [scanAux, tokenizeAux]
    | some acc =>
      simp [scanAux, tokenizeAux, renderTok, flatMap_renderTok_lit_rev]
  | cons c rest ih =>
    intro st
    cases st with
    | none =>
      by_cases hc : c = '{'
      · simp [scanAux, tokenizeAux, hc, ih]
      · simp [scanAux, tokenizeAux, hc, ih, renderTok]
    | some acc =>
      by_cases hc : c = '}'
      · by_cases ha : acc.isEmpty
        · simp [scanAux, tokenizeAux, hc, ha, ih, renderTok]
        · have hr := replCallback_eq_renderTok repl acc.reverse
          simp [scanAux, tokenizeAux, hc, ha, ih, hr]
      · by_cases hb : c = '{'
        · simp [scanAux, tokenizeAux, hc, hb, ih, renderTok, flatMap_renderTok_lit_rev]
        · simp [scanAux, tokenizeAux, hc, hb, ih]

/-- Tokenization is lossless: rendering each token back to its source
text reproduces the template (the brace-prefixed pending state
included). -/
lemma tokenizeAux_detok :
    ∀ (s : List Char) (st : Option (List Char)),
      (tokenizeAux st s).flatMap detok = pendingText st ++ s := by
  intro s
  induction s with
  | nil =>
    intro st
    cases st with
    | none => simp [tokenizeAux, pendingText]
    | some acc =>
      simp [tokenizeAux, pendingText, detok, flatMap_detok_lit_rev]
  | cons c rest ih =>
    intro st
    cases st with
    | none =>
      by_cases hc : c = '{'
      · simp [tokenizeAux, hc, ih, pendingText]
      · simp [tokenizeAux, hc, ih, pendingText, detok]
    | some acc =>
      by_cases hc : c = '}'
      · by_cases ha : acc.isEmpty
        · have : acc = [] := List.isEmpty_iff.mp ha
          simp [tokenizeAux, hc, ha, ih, pendingText, detok, this]
        · simp [tokenizeAux, hc, ha, ih, pendingText, detok]
      · by_cases hb : c = '{'
        · simp [tokenizeAux, hc, hb, ih, pendingText, detok, flatMap_detok_lit_rev]
        · have := ih (some (c :: acc))
          simp [tokenizeAux, hc, hb, this, pendingText]

/-- Every placeholder token produced by the tokenizer has a nonempty,
brace-free name, provided the pending accumulator is brace-free. -/
lemma tokenizeAux_ph_wf :
    ∀ (s : List Char) (st : Option (List Char)),
      (∀ acc, st = some acc → ∀ c ∈ acc, c ≠ '{' ∧ c ≠ '}') →
      ∀ name, Tok.ph name ∈ tokenizeAux st s →
        name ≠ [] ∧ ∀ c ∈ name, c ≠ '{' ∧ c ≠ '}' := by
  intro s
  induction s with
  | nil =>
    intro st hst name hmem
    cases st with
    | none => simp [tokenizeAux] at hmem
    | some acc =>
      simp only [tokenizeAux, List.mem_cons, List.mem_map] at hmem
      rcases hmem with h | h
      · exact absurd h (by simp)
      · rcases h with ⟨c, _, h⟩; exact absurd h (by simp)
  | cons c rest ih =>
    intro st hst name hmem
    cases st with
    | none =>
      by_cases hc : c = '{'
      · rw [tokenizeAux, if_pos hc] at hmem
        exact ih (some []) (by simp) name hmem
      · rw [tokenizeAux, if_neg hc] at hmem
        rcases List.mem_cons.mp hmem with h | h
        · exact absurd h (by simp)
        · exact ih none (by simp) name h
    | some acc =>
      have hacc : ∀ d ∈ acc, d ≠ '{' ∧ d ≠ '}' := hst acc rfl
      by_cases hc : c = '}'
      · by_cases ha : acc.isEmpty
        · rw [tokenizeAux, if_pos hc, if_pos ha] at hmem
          rcases List.mem_cons.mp hmem with h | h
          · exact absurd h (by simp)
          rcases List.mem_cons.mp h with h' | h'
          · exact absurd h' (by simp)
          · exact ih none (by simp) name h'
        · rw [tokenizeAux, if_pos hc, if_neg ha] at hmem
          rcases List.mem_cons.mp hmem with h | h
          · have hname : name = acc.reverse := by
              simpa using h
            subst hname
            constructor
            · intro hnil
              exact ha (by simpa [List.isEmpty_iff] using
                List.reverse_eq_nil_iff.mp hnil)
            · intro d hd
              exact hacc d (List.mem_reverse.mp hd)
          · exact ih none (by simp) name h
      · by_cases hb : c = '{'
        · rw [tokenizeAux, if_neg hc, if_pos hb] at hmem
          rcases List.mem_cons.mp hmem with h | h
          · exact absurd h (by simp)
          rcases List.mem_append.mp h with h' | h'
          · rcases List.mem_map.mp h' with ⟨d, _, hd⟩
            exact absurd hd (by simp)
          · exact ih (some []) (by simp) name h'
        · rw [tokenizeAux, if_neg hc, if_neg hb] at hmem
          refine ih (some (c :: acc)) ?_ name hmem
          intro acc' hacc' d hd
          cases hacc'
          rcases List.mem_cons.mp hd with h | h
          · subst h; exact ⟨hb, hc⟩
          · exact hacc d h

lemma alGet_alSet {α : Type} (m : List (String × α)) (k k' : String) (v : α) :
    alGet (alSet m k v) k' = if k = k' then some v else alGet m k' := by
  induction m with
  | nil => by_cases h : k = k' <;> simp [alSet, alGet, h]
  | cons p rest ih =>
    obtain ⟨k₀, v₀⟩ := p
    by_cases h0 : k₀ = k
    · subst h0
      by_cases h1 : k₀ = k' <;> simp [alSet, alGet, h1]
    · by_cases h1 : k₀ = k'
      · subst h1
        have hne : ¬k = k₀ := fun he => h0 he.symm
        simp [alSet, alGet, h0, hne]
      · simp [alSet, alGet, h0, h1, ih]

lemma alHas_alSet {α : Type} (m : List (String × α)) (k k' : String) (v : α) :
    alHas (alSet m k v) k' = (k = k' || alHas m k') := by
  by_cases h : k = k' <;> simp [alHas, alGet_alSet, h]

lemma alGet_getD_inner (T : Table) (l k : String) :
    alGet ((alGet T l).getD []) k = tableGet T l k := by
  cases h : alGet T l <;> simp [tableGet, h, alGet]

lemma tableGet_applyTripleForce (T : Table) (t : String × String × String)
    (l k : String) :
    tableGet (applyTripleForce T t) l k =
      if t.2.1 = l ∧ t.1 = k then some t.2.2 else tableGet T l k := by
  obtain ⟨key, lang, v⟩ := t
  by_cases hl : lang = l
  · subst hl
    by_cases hk : key = k
    · subst hk
      simp [applyTripleForce, tableGet, alGet_alSet]
    · simp [applyTripleForce, tableGet, alGet_alSet, hk, alGet_getD_inner]
  · have : ¬(lang = l ∧ key = k) := fun h => hl h.1
    simp only [applyTripleForce, tableGet]
    rw [alGet_alSet]
    simp [hl, this, tableGet]

lemma tableGet_foldl_force (ts : List (String × String × String)) :
    ∀ (T : Table) (l k : String),
      tableGet (ts.foldl applyTripleForce T) l k
        = lastAssignFrom ts l k (tableGet T l k) := by
  induction ts with
  | nil => intro T l k; simp [lastAssignFrom]
  | cons t ts ih =>
    intro T l k
    rw [List.foldl_cons, ih, tableGet_applyTripleForce]
    rfl

lemma lastAssignFrom_init (ts : List (String × String × String)) :
    ∀ (l k : String) (init : Option String),
      lastAssignFrom ts l k init = orElseOpt (lastAssignFrom ts l k none) init := by
  induction ts with
  | nil => intro l k init; simp [lastAssignFrom, orElseOpt]
  | cons t ts ih =>
    intro l k init
    change lastAssignFrom ts l k (if t.2.1 = l ∧ t.1 = k then some t.2.2 else init)
      = orElseOpt
          (lastAssignFrom ts l k (if t.2.1 = l ∧ t.1 = k then some t.2.2 else none))
          init
    by_cases h : t.2.1 = l ∧ t.1 = k
    · rw [if_pos h, if_pos h, ih l k (some t.2.2)]
      cases lastAssignFrom ts l k none <;> simp [orElseOpt]
    · rw [if_neg h, if_neg h, ih l k init]

lemma lastAssignFrom_append (a b : List (String × String × String))
    (l k : String) (init : Option String) :
    lastAssignFrom (a ++ b) l k init
      = lastAssignFrom b l k (lastAssignFrom a l k init) := by
  simp [lastAssignFrom, List.foldl_append]

lemma foldl_entry_bridge (entry : List (String × List (String × String))) :
    ∀ acc : Table,
      (entry.flatMap (fun kp => kp.2.map (fun lp => (kp.1, lp.1, lp.2)))).foldl
          applyTriple acc
        = entry.foldl
            (fun result kp =>
              kp.2.foldl
                (fun result lp =>
                  if alHas result lp.1 then
                    alSet result lp.1 (alSet ((alGet result lp.1).getD []) kp.1 lp.2)
                  else result)
                result)
            acc := by
  induction entry with
  | nil => intro acc; rfl
  | cons kp rest ih =>
    intro acc
    rw [List.flatMap_cons, List.foldl_append, ih, List.foldl_map]
    rfl

lemma foldl_batches_bridge (bs : List PartialEntryMap) :
    ∀ acc : Table,
      (bs.flatMap (fun entry =>
          entry.flatMap (fun kp => kp.2.map (fun lp => (kp.1, lp.1, lp.2))))).foldl
          applyTriple acc
        = bs.foldl
            (fun result entry =>
              entry.foldl
                (fun result kp =>
                  kp.2.foldl
                    (fun result lp =>
                      if alHas result lp.1 then
                        alSet result lp.1
                          (alSet ((alGet result lp.1).getD []) kp.1 lp.2)
                      else result)
                    result)
                result)
            acc := by
  induction bs with
  | nil => intro acc; rfl
  | cons b bs ih =>
    intro acc
    rw [List.flatMap_cons, List.foldl_append, ih, foldl_entry_bridge]
    rfl

lemma makeTranslation_eq_foldTriples (sup : List String) (bs : List PartialEntryMap) :
    makeTranslation sup bs = (flatten bs).foldl applyTriple (initTable sup) := by
  unfold flatten
  rw [foldl_batches_bridge]
  rfl

lemma extendTable_eq_foldTriples (sup : List String) (T : Table)
    (bs : List PartialEntryMap) :
    extendTable sup T bs
      = (enumTriples (makeTranslation sup bs)).foldl applyTripleForce T := by
  rw [extendTable, enumTriples]
  generalize makeTranslation sup bs = M
  induction M generalizing T with
  | nil => rfl
  | cons e M ih =>
    rw [List.flatMap_cons, List.foldl_append, List.foldl_map, List.foldl_cons, ih]
    rfl

lemma alGet_initTable_aux (ls : List String) :
    ∀ (r : Table) (j : String),
      alGet (ls.foldl (fun r lang => alSet r lang []) r) j
        = if includes ls j then some [] else alGet r j := by
  induction ls with
  | nil => intro r j; simp [includes]
  | cons lang ls ih =>
    intro r j
    rw [List.foldl_cons, ih]
    by_cases h : lang = j
    · by_cases h2 : includes ls j <;> simp [includes, h, h2, alGet_alSet]
    · by_cases h2 : includes ls j <;> simp [includes, h, h2, alGet_alSet]

lemma alGet_initTable (sup : List String) (j : String) :
    alGet (initTable sup) j = if includes sup j then some [] else none := by
  rw [initTable, alGet_initTable_aux]
  rfl

lemma alHas_initTable (sup : List String) (j : String) :
    alHas (initTable sup) j = includes sup j := by
  rw [alHas, alGet_initTable]
  by_cases h : includes sup j <;> simp [h]

lemma tableGet_initTable (sup : List String) (l k : String) :
    tableGet (initTable sup) l k = none := by
  rw [tableGet, alGet_initTable]
  by_cases h : includes sup l <;> simp [h, alGet]

lemma tableGet_eq_none_of_not_has (T : Table) (l k : String)
    (h : alHas T l = false) : tableGet T l k = none := by
  rw [tableGet]
  cases hg : alGet T l with
  | none => rfl
  | some inner => rw [alHas, hg] at h; simp at h

lemma foldl_applyTriple_char (sup : List String)
    (ts : List (String × String × String)) :
    ∀ (T : Table), (∀ j, alHas T j = includes sup j) →
      (∀ j, alHas (ts.foldl applyTriple T) j = includes sup j)
      ∧ ∀ l k, tableGet (ts.foldl applyTriple T) l k
          = if includes sup l then lastAssignFrom ts l k (tableGet T l k)
            else none := by
  induction ts with
  | nil =>
    intro T hinv
    refine ⟨hinv, fun l k => ?_⟩
    by_cases h : includes sup l
    · simp [h, lastAssignFrom]
    · have : alHas T l = false := by
        rw [hinv l]
        exact Bool.eq_false_iff.mpr (by simpa using h)
      simp [h, tableGet_eq_none_of_not_has T l k this]
  | cons t ts ih =>
    intro T hinv
    have hinv' : ∀ j, alHas (applyTriple T t) j = includes sup j := by
      intro j
      by_cases hg : alHas T t.2.1
      · rw [applyTriple, if_pos hg, alHas_alSet]
        by_cases he : t.2.1 = j
        · subst he; simp [← hinv t.2.1, hg]
        · simp [he, hinv j]
      · rw [applyTriple, if_neg hg]
        exact hinv j
    have hstep : ∀ l k, includes sup l = true →
        tableGet (applyTriple T t) l k
          = if t.2.1 = l ∧ t.1 = k then some t.2.2 else tableGet T l k := by
      intro l k hl
      by_cases hg : alHas T t.2.1
      · have := tableGet_applyTripleForce T t l k
        rw [applyTripleForce] at this
        rw [applyTriple, if_pos hg]
        exact this
      · rw [applyTriple, if_neg hg]
        have hns : includes sup t.2.1 = false := by rw [← hinv t.2.1]; simpa using hg
        have : ¬(t.2.1 = l ∧ t.1 = k) := by
          rintro ⟨h1, -⟩
          rw [h1, hl] at hns
          exact absurd hns (by simp)
        simp [this]
    obtain ⟨ha, hb⟩ := ih (applyTriple T t) hinv'
    refine ⟨by simpa using ha, fun l k => ?_⟩
    rw [List.foldl_cons] at *
    rw [hb l k]
    by_cases hl : includes sup l
    · rw [if_pos hl, if_pos hl, hstep l k hl]
      rfl
    · simp [hl]

/-- Characterization of makeTranslation: the built table has exactly one
sub-map per supported locale, and the entry stored at (locale, key) is
the last (key, locale, value) triple of the flattened, ordered input
whose locale is that locale — none for unsupported locales. -/
lemma makeTranslation_char (sup : List String) (bs : List PartialEntryMap) :
    (∀ j, alHas (makeTranslation sup bs) j = includes sup j)
    ∧ ∀ l k, tableGet (makeTranslation sup bs) l k
        = if includes sup l then lastAssignFrom (flatten bs) l k none else none := by
  rw [makeTranslation_eq_foldTriples]
  have h := foldl_applyTriple_char sup (flatten bs) (initTable sup)
    (fun j => alHas_initTable sup j)
  refine ⟨h.1, fun l k => ?_⟩
  rw [h.2 l k, tableGet_initTable]

lemma alHas_of_mem_keys {α : Type} (m : List (String × α)) (j : String)
    (h : j ∈ m.map Prod.fst) : alHas m j = true := by
  induction m with
  | nil => simp at h
  | cons p rest ih =>
    obtain ⟨k₀, v₀⟩ := p
    by_cases he : k₀ = j
    · rw [alHas, alGet]
      simp [he]
    · rw [alHas, alGet]
      simp only [he, if_false]
      rw [← alHas]
      apply ih
      rcases (by simpa using h : j = k₀ ∨ j ∈ rest.map Prod.fst) with h1 | h1
      · exact absurd h1.symm he
      · exact h1

lemma alGet_eq_none_of_not_mem_keys {α : Type} (m : List (String × α)) (j : String)
    (h : j ∉ m.map Prod.fst) : alGet m j = none := by
  induction m with
  | nil => rfl
  | cons p rest ih =>
    obtain ⟨k₀, v₀⟩ := p
    have hne : ¬k₀ = j := fun he => h (by simp [he])
    simp only [alGet, hne, if_false]
    exact ih (fun hm => h (by simp [hm]))

lemma keys_alSet {α : Type} (m : List (String × α)) (k : String) (v : α) :
    (alSet m k v).map Prod.fst
      = if alHas m k then m.map Prod.fst else m.map Prod.fst ++ [k] := by
  induction m with
  | nil => simp [alSet, alHas, alGet]
  | cons p rest ih =>
    by_cases he : p.1 = k
    · have : alHas (p :: rest) k = true := by
        rw [alHas, alGet]
        simp [he]
      rw [this]
      obtain ⟨k₀, v₀⟩ := p
      simp only at he
      simp [alSet, he]
    · have : alHas (p :: rest) k = alHas rest k := by
        rw [alHas, alGet, alHas]
        simp [he]
      rw [this]
      obtain ⟨k₀, v₀⟩ := p
      simp only at he
      by_cases h2 : alHas rest k <;> simp [alSet, he, h2, ih]

lemma nodup_keys_alSet {α : Type} (m : List (String × α)) (k : String) (v : α)
    (h : (m.map Prod.fst).Nodup) : ((alSet m k v).map Prod.fst).Nodup := by
  rw [keys_alSet]
  by_cases hk : alHas m k
  · simpa [hk] using h
  · have : k ∉ m.map Prod.fst := by
      intro hm
      rw [alHas_of_mem_keys m k hm] at hk
      exact hk rfl
    simp [hk, List.nodup_append, h, this]

lemma mem_alSet {α : Type} (m : List (String × α)) (k : String) (v : α)
    (p : String × α) (h : p ∈ alSet m k v) : p ∈ m ∨ p = (k, v) := by
  induction m with
  | nil =>
    right
    simpa [alSet] using h
  | cons q rest ih =>
    obtain ⟨k₀, v₀⟩ := q
    by_cases he : k₀ = k
    · subst he
      rw [show alSet ((k₀, v₀) :: rest) k₀ v = (k₀, v) :: rest from by
        simp [alSet]] at h
      rcases List.mem_cons.mp h with h1 | h1
      · right; exact h1
      · left; exact List.mem_cons_of_mem _ h1
    · rw [show alSet ((k₀, v₀) :: rest) k v = (k₀, v₀) :: alSet rest k v from by
        simp [alSet, he]] at h
      rcases List.mem_cons.mp h with h1 | h1
      · left; simp [h1]
      · rcases ih h1 with h2 | h2
        · left; exact List.mem_cons_of_mem _ h2
        · right; exact h2

lemma mem_of_alGet {α : Type} (m : List (String × α)) (k : String) (v : α)
    (h : alGet m k = some v) : (k, v) ∈ m := by
  induction m with
  | nil => rw [alGet] at h; cases h
  | cons p rest ih =>
    obtain ⟨k₀, v₀⟩ := p
    by_cases he : k₀ = k
    · subst he
      have hv : v₀ = v := by simpa [alGet] using h
      subst hv
      exact List.mem_cons_self _ _
    · rw [show alGet ((k₀, v₀) :: rest) k = alGet rest k from by
        simp [alGet, he]] at h
      exact List.mem_cons_of_mem _ (ih h)

lemma tableWF_applyTripleForce (T : Table) (t : String × String × String)
    (h : TableWF T) : TableWF (applyTripleForce T t) := by
  obtain ⟨h1, h2⟩ := h
  constructor
  · exact nodup_keys_alSet _ _ _ h1
  · intro p hp
    rcases mem_alSet _ _ _ p hp with hm | hm
    · exact h2 p hm
    · rw [hm]
      apply nodup_keys_alSet
      cases hg : alGet T t.2.1 with
      | none => simp [hg]
      | some inner =>
        simpa [hg] using h2 (t.2.1, inner) (mem_of_alGet _ _ _ hg)

lemma tableWF_applyTriple (T : Table) (t : String × String × String)
    (h : TableWF T) : TableWF (applyTriple T t) := by
  by_cases hg : alHas T t.2.1
  · have := tableWF_applyTripleForce T t h
    rw [applyTripleForce] at this
    rw [applyTriple, if_pos hg]
    exact this
  · rw [applyTriple, if_neg hg]
    exact h

lemma tableWF_initTable (sup : List String) : TableWF (initTable sup) := by
  rw [initTable]
  have main : ∀ (ls : List String) (r : Table), TableWF r →
      (∀ p ∈ r, p.2 = ([] : List (String × String))) →
      TableWF (ls.foldl (fun r lang => alSet r lang []) r) := by
    intro ls
    induction ls with
    | nil => intro r h _; exact h
    | cons lang ls ih =>
      intro r h hempty
      rw [List.foldl_cons]
      refine ih (alSet r lang []) ⟨nodup_keys_alSet _ _ _ h.1, ?_⟩ ?_
      · intro p hp
        rcases mem_alSet _ _ _ p hp with hm | hm
        · exact h.2 p hm
        · rw [hm]; simp
      · intro p hp
        rcases mem_alSet _ _ _ p hp with hm | hm
        · exact hempty p hm
        · rw [hm]
  exact main sup [] ⟨by simp, by simp⟩ (by simp)

lemma tableWF_makeTranslation (sup : List String) (bs : List PartialEntryMap) :
    TableWF (makeTranslation sup bs) := by
  rw [makeTranslation_eq_foldTriples]
  have main : ∀ (ts : List (String × String × String)) (T : Table), TableWF T →
      TableWF (ts.foldl applyTriple T) := by
    intro ts
    induction ts with
    | nil => intro T h; exact h
    | cons t ts ih =>
      intro T h
      rw [List.foldl_cons]
      exact ih _ (tableWF_applyTriple T t h)
  exact main _ _ (tableWF_initTable sup)

lemma lastAssignFrom_no_hit (ts : List (String × String × String)) (l k : String) :
    ∀ init, (∀ t ∈ ts, ¬(t.2.1 = l ∧ t.1 = k)) →
      lastAssignFrom ts l k init = init := by
  induction ts with
  | nil => intro init _; rfl
  | cons t ts ih =>
    intro init h
    have hne := h t (List.mem_cons_self _ _)
    show lastAssignFrom ts l k (if t.2.1 = l ∧ t.1 = k then some t.2.2 else init) = init
    rw [if_neg hne]
    exact ih init (fun u hu => h u (List.mem_cons_of_mem _ hu))

lemma lastAssign_inner (lang k : String) (inner : List (String × String))
    (hnd : (inner.map Prod.fst).Nodup) :
    lastAssignFrom (inner.map (fun p => (p.1, lang, p.2))) lang k none
      = alGet inner k := by
  induction inner with
  | nil => rfl
  | cons p rest ih =>
    obtain ⟨k₁, v₁⟩ := p
    have hnd' : (rest.map Prod.fst).Nodup := (List.nodup_cons.mp hnd).2
    have hnotin : k₁ ∉ rest.map Prod.fst := (List.nodup_cons.mp hnd).1
    show lastAssignFrom (rest.map (fun p => (p.1, lang, p.2))) lang k
        (if lang = lang ∧ k₁ = k then some v₁ else none) = alGet ((k₁, v₁) :: rest) k
    by_cases he : k₁ = k
    · subst he
      rw [if_pos ⟨rfl, rfl⟩]
      rw [lastAssignFrom_init, lastAssignFrom_no_hit]
      · simp [alGet, orElseOpt, ih hnd']
      · rintro t ht ⟨-, hk⟩
        rcases List.mem_map.mp ht with ⟨q, hq, hqt⟩
        apply hnotin
        rw [← hqt] at hk
        simp only at hk
        rw [← hk]
        exact List.mem_map.mpr ⟨q, hq, rfl⟩
    · rw [if_neg (fun hc => he hc.2), ih hnd']
      rw [show alGet ((k₁, v₁) :: rest) k = alGet rest k from by simp [alGet, he]]

lemma lastAssign_enum (M : Table) :
    ∀ (l k : String), TableWF M →
      lastAssignFrom (enumTriples M) l k none = tableGet M l k := by
  induction M with
  | nil => intro l k _; rfl
  | cons e M ih =>
    intro l k hwf
    obtain ⟨lang, inner⟩ := e
    obtain ⟨hnd, hinner⟩ := hwf
    have hndM : (M.map Prod.fst).Nodup := (List.nodup_cons.mp (by simpa using hnd)).2
    have hnotin : lang ∉ M.map Prod.fst := (List.nodup_cons.mp (by simpa using hnd)).1
    rw [enumTriples, List.flatMap_cons]
    rw [show List.flatMap M _ = enumTriples M from rfl]
    rw [lastAssignFrom_append, lastAssignFrom_init (enumTriples M)]
    by_cases hl : lang = l
    · subst hl
      have hhead : lastAssignFrom (inner.map (fun p => (p.1, lang, p.2))) lang k none
          = alGet inner k :=
        lastAssign_inner lang k inner
          (hinner (lang, inner) (List.mem_cons_self _ _))
      have htail : lastAssignFrom (enumTriples M) lang k none = none := by
        rw [ih lang k ⟨hndM, fun p hp => hinner p (List.mem_cons_of_mem _ hp)⟩]
        rw [tableGet, alGet_eq_none_of_not_mem_keys M lang hnotin]
        rfl
      rw [hhead, htail, tableGet]
      simp [alGet, orElseOpt]
    · have hhead : lastAssignFrom (inner.map (fun p => (p.1, lang, p.2))) l k none
          = none := by
        rw [lastAssignFrom_no_hit]
        rintro t ht ⟨hlg, -⟩
        rcases List.mem_map.mp ht with ⟨q, -, hqt⟩
        rw [← hqt] at hlg
        exact hl hlg
      have htail := ih l k ⟨hndM, fun p hp => hinner p (List.mem_cons_of_mem _ hp)⟩
      rw [hhead, htail]
      rw [show tableGet ((lang, inner) :: M) l k = tableGet M l k from by
        simp [tableGet, alGet, hl]]
      cases tableGet M l k <;> simp [orElseOpt]

/-- Characterization of the extendTranslations merge: looking up any
(locale, key) pair in the merged table yields the new batches' value
when they define one, and the previous table's value otherwise. -/
lemma extendTable_char (sup : List String) (T : Table) (bs : List PartialEntryMap)
    (l k : String) :
    tableGet (extendTable sup T bs) l k
      = orElseOpt (tableGet (makeTranslation sup bs) l k) (tableGet T l k) := by
  rw [extendTable_eq_foldTriples, tableGet_foldl_force, lastAssignFrom_init,
    lastAssign_enum _ _ _ (tableWF_makeTranslation sup bs)]

lemma firstLoop_eq_specFirstMatch (sup : List String) :
    ∀ tags, firstLoop sup tags = specFirstMatch sup tags := by
  intro tags
  induction tags with
  | nil => rfl
  | cons tag rest ih =>
    rw [firstLoop, specFirstMatch, specMatchTag]
    by_cases h1 : includes sup tag
    · simp [h1, orElseOpt]
    · by_cases h2 : includes sup (baseOf tag)
      · simp [h1, h2, orElseOpt]
      · simp [h1, h2, orElseOpt, ih]

lemma firstLoop_singleton (sup : List String) (l : String) :
    firstLoop sup [l] = specMatchTag sup l := by
  rw [firstLoop, specMatchTag]
  by_cases h1 : includes sup l
  · simp [h1]
  · by_cases h2 : includes sup (baseOf l) <;> simp [h1, h2, firstLoop]

lemma fallback_eq_step34 (sup : List String) (d : String)
    (langs : Option (List String)) (lang : Option String) :
    (match firstLoop sup
        (match langs with
          | some ls => ls
          | none =>
            match lang with
            | some l => if l = "" then [] else [l]
            | none => []) with
      | some r => r
      | none => d)
    = (match langs with
        | some tags => specFirstMatch sup tags
        | none =>
          match lang with
          | some l => if l ≠ "" then specMatchTag sup l else none
          | none => none).getD d := by
  cases langs with
  | some tags =>
    dsimp only
    rw [firstLoop_eq_specFirstMatch]
    cases h : specFirstMatch sup tags <;> simp [h]
  | none =>
    cases lang with
    | some l =>
      dsimp only
      by_cases hl : l = ""
      · simp [hl, firstLoop]
      · rw [if_neg hl, if_pos hl, firstLoop_singleton]
        cases h : specMatchTag sup l <;> simp [h]
    | none => dsimp only; simp [firstLoop]

/-- C1 (refutation of the never-throws claim): from a freshly built
store, force-writing the unsupported locale "xx" to the locale cell and
then calling extendTranslations with an empty batch list leaves the
_t cell holding translations.get("xx"), which is undefined, so the next
call of the translation function throws instead of returning a string. -/
theorem t_throws_after_invalid_write_then_extend :
    tCall
        (runActions cfgEx false (initState cfgEx none)
          [Action.write "xx", Action.extend []])
        "hello" none
      = Except.error ()
    ∧ (runActions cfgEx false (initState cfgEx none)
          [Action.write "xx", Action.extend []]).localeVal = "xx" := by
  constructor <;> rfl

/-- C2: getInitLocale returns exactly what the spec's strict priority
order prescribes — headless default, then a non-empty supported
persisted value, then per preferred tag full match before base-subtag
match, then the single preferred language when no list exists, then the
default. -/
theorem getInitLocale_matches_spec_priority :
    ∀ (sup : List String) (defaultLocale localStorageKey : String)
      (env : Option BrowserEnv),
      getInitLocale sup defaultLocale localStorageKey env
        = resolveSpec sup defaultLocale localStorageKey env := by
  intro sup d key env
  cases env with
  | none => rfl
  | some e =>
    obtain ⟨stor, langs, lang⟩ := e
    simp only [getInitLocale, resolveSpec]
    cases hs : alGet stor key with
    | some s =>
      dsimp only
      by_cases hcond : s ≠ "" ∧ includes sup s
      · simp [hcond, orElseOpt]
      · rw [if_neg hcond, if_neg hcond]
        simpa using fallback_eq_step34 sup d langs lang
    | none =>
      dsimp only
      simpa using fallback_eq_step34 sup d langs lang

/-- C3 counterexample: the claim says a placeholder whose name has no
non-null, non-undefined entry in the replacements mapping is left
verbatim in the output, braces included; but with a provided, empty
replacements object the placeholder named proto in the stored template
is substituted, not preserved: the property read replacements[key]
walks the record's prototype chain to the inherited accessor, which
yields Object.prototype, and String(Object.prototype) is the
object-Object text fixed by ECMAScript — so t returns that text
instead of the verbatim placeholder. -/
theorem proto_placeholder_substituted_not_verbatim :
    tFun [("k", "\x7b__proto__\x7d")] "k" (some []) = "[object Object]"
    ∧ tFun [("k", "\x7b__proto__\x7d")] "k" (some []) ≠ "\x7b__proto__\x7d" := by
  constructor <;> decide

/-- C3 (amended): the substitution pass of t decomposes the template
into literal characters and placeholder tokens and renders each token
independently: a placeholder with a non-null, non-undefined own entry
in the replacements mapping becomes the string form of that entry's
value; a placeholder with no own entry whose name is a member of
Object.prototype becomes the string form of the inherited member; any
other placeholder stays verbatim with its braces; rendered values are
inserted as-is (never re-scanned), tokenization is lossless, and every
placeholder name is nonempty and brace-free. -/
theorem substitute_tokenizes_and_renders :
    ∀ (repl : List (String × JSVal)) (s : List Char),
      substitute repl s = (tokenize s).flatMap (renderTok repl)
      ∧ (tokenize s).flatMap detok = s
      ∧ ∀ name, Tok.ph name ∈ tokenize s →
          name ≠ [] ∧ ∀ c ∈ name, c ≠ '{' ∧ c ≠ '}' := by
  intro repl s
  refine ⟨scanAux_eq_render repl s none, ?_, ?_⟩
  · simpa [pendingText] using tokenizeAux_detok s none
  · intro name hmem
    exact tokenizeAux_ph_wf s none (by simp) name hmem

theorem substitute_tokenizes_and_renders_witness :
    substitute [("num", JSVal.num 0)] "Items: {num}".data
        = (tokenize "Items: {num}".data).flatMap (renderTok [("num", JSVal.num 0)])
    ∧ ("num".data ≠ [] ∧ ∀ c ∈ "num".data, c ≠ '{' ∧ c ≠ '}') :=
  ⟨(substitute_tokenizes_and_renders [("num", JSVal.num 0)] "Items: {num}".data).1,
    (substitute_tokenizes_and_renders [("num", JSVal.num 0)]
        "Items: {num}".data).2.2 "num".data (by decide)⟩

/-- C4: force-writing a string with no sub-table in the translation
table changes the reported locale to that string and (in a browser)
persists it under the storage key, but leaves the current sub-table
view unchanged, so the translator's output is identical on every key
and replacements argument. -/
theorem invalid_direct_write_divergence :
    ∀ (cfg : Config) (browser : Bool) (st : StoreState) (s : String),
      alHas st.translations s = false →
      (localeSet cfg browser st s).localeVal = s
      ∧ (localeSet cfg browser st s).view = st.view
      ∧ (browser = true →
          (localeSet cfg browser st s).storage
            = alSet st.storage cfg.localStorageKey s)
      ∧ ∀ key repl,
          tCall (localeSet cfg browser st s) key repl = tCall st key repl := by
  intro cfg browser st s h
  have hview : (localeSet cfg browser st s).view = st.view := by
    cases browser <;> simp [localeSet, notifyLocale, subscriberBody, h]
  refine ⟨?_, hview, ?_, ?_⟩
  · cases browser <;> simp [localeSet, notifyLocale, subscriberBody, h]
  · intro hb
    subst hb
    simp [localeSet, notifyLocale, subscriberBody, h]
  · intro key repl
    simp only [tCall]
    rw [hview]

theorem invalid_direct_write_divergence_witness :
    (localeSet cfgEx true stEx "xx").localeVal = "xx"
    ∧ (localeSet cfgEx true stEx "xx").view = stEx.view
    ∧ (localeSet cfgEx true stEx "xx").storage
        = alSet stEx.storage cfgEx.localStorageKey "xx"
    ∧ tCall (localeSet cfgEx true stEx "xx") "hello" none
        = tCall stEx "hello" none := by
  have h := invalid_direct_write_divergence cfgEx true stEx "xx" (by decide)
  exact ⟨h.1, h.2.1, h.2.2.1 rfl, h.2.2.2 "hello" none⟩

/-- C5: setLocale writes to the locale cell exactly when its argument
is a non-empty supported string; null/undefined is silently ignored,
the empty string is ignored with its own diagnostic when devLogs is on,
and an unsupported non-empty string is ignored with a diagnostic naming
it and the supported set — the state (hence the active locale) is
unchanged in all three rejection cases. -/
theorem setLocale_writes_iff_supported :
    ∀ (cfg : Config) (browser : Bool) (st : StoreState) (lang : Option String),
      (∀ l, lang = some l → l ≠ "" → includes cfg.supportedLocales l = true →
        setLocale cfg browser st lang = (localeSet cfg browser st l, []))
      ∧ (lang = none → setLocale cfg browser st lang = (st, []))
      ∧ (lang = some "" →
          setLocale cfg browser st lang
            = (st, if cfg.devLogs then [Diag.emptyLang] else []))
      ∧ (∀ l, lang = some l → l ≠ "" → includes cfg.supportedLocales l = false →
          setLocale cfg browser st lang
            = (st,
                if cfg.devLogs then [Diag.unsupportedLang l cfg.supportedLocales]
                else [])) := by
  intro cfg browser st lang
  refine ⟨?_, ?_, ?_, ?_⟩
  · rintro l rfl hne hsup
    rw [setLocale, if_neg hne, if_pos hsup]
  · rintro rfl
    rfl
  · rintro rfl
    rfl
  · rintro l rfl hne hsup
    rw [setLocale, if_neg hne, if_neg (by simp [hsup])]

theorem setLocale_writes_iff_supported_witness :
    setLocale cfgEx false stEx (some "es") = (localeSet cfgEx false stEx "es", [])
    ∧ setLocale cfgEx false stEx none = (stEx, [])
    ∧ setLocale cfgEx false stEx (some "")
        = (stEx, if cfgEx.devLogs then [Diag.emptyLang] else [])
    ∧ setLocale cfgEx false stEx (some "fr")
        = (stEx,
            if cfgEx.devLogs then [Diag.unsupportedLang "fr" cfgEx.supportedLocales]
            else []) := by
  refine ⟨?_, ?_, ?_, ?_⟩
  · exact (setLocale_writes_iff_supported cfgEx false stEx (some "es")).1 "es" rfl
      (by decide) (by decide)
  · exact (setLocale_writes_iff_supported cfgEx false stEx none).2.1 rfl
  · exact (setLocale_writes_iff_supported cfgEx false stEx (some "")).2.2.1 rfl
  · exact (setLocale_writes_iff_supported cfgEx false stEx (some "fr")).2.2.2 "fr" rfl
      (by decide) (by decide)

/-- C6: makeTranslation creates one sub-map per supported locale (and
none for any other locale, even when a supported locale appears in no
input), and the entry stored at (locale, key) is the last (key, locale,
value) pair of the batches in processing order — batch by batch, entry
by entry, pair by pair — while pairs naming unsupported locales are
silently dropped. -/
theorem makeTranslation_in_order_last_write_wins :
    ∀ (supportedLocales : List String) (batches : List PartialEntryMap)
      (l k : String),
      alHas (makeTranslation supportedLocales batches) l
          = includes supportedLocales l
      ∧ tableGet (makeTranslation supportedLocales batches) l k
          = (if includes supportedLocales l then
              lastAssignFrom (flatten batches) l k none
            else none) :=
  fun sup bs l k =>
    ⟨(makeTranslation_char sup bs).1 l, (makeTranslation_char sup bs).2 l k⟩

/-- C7: building from B1 and then merging B2 with the extension
operation gives, at every (locale, key) pair, the same table as
building from B1 ++ B2 — so a pair written in both an earlier and a
later batch ends with the later batch's value. -/
theorem extend_equals_concatenated_build :
    ∀ (sup : List String) (b1 b2 : List PartialEntryMap) (l k : String),
      tableGet (extendTable sup (makeTranslation sup b1) b2) l k
        = tableGet (makeTranslation sup (b1 ++ b2)) l k := by
  intro sup b1 b2 l k
  rw [extendTable_char, (makeTranslation_char sup b1).2 l k,
    (makeTranslation_char sup b2).2 l k,
    (makeTranslation_char sup (b1 ++ b2)).2 l k]
  have hflat : flatten (b1 ++ b2) = flatten b1 ++ flatten b2 := by
    simp [flatten]
  rw [hflat, lastAssignFrom_append, lastAssignFrom_init]
  by_cases hl : includes sup l
  · simp only [hl, if_true]
    rw [lastAssignFrom_init (flatten b2) l k (lastAssignFrom (flatten b1) l k none)]
    cases lastAssignFrom (flatten b2) l k none <;> simp [orElseOpt]
  · simp [hl, orElseOpt]

/-- C8: a key absent from the current view translates to exactly the
key string itself when no replacements argument is given. -/
theorem t_missing_key_returns_key :
    ∀ (view : List (String × String)) (key : String),
      alGet view key = none → tFun view key none = key := by
  intro view key h
  rw [tFun, h]

theorem t_missing_key_returns_key_witness :
    tFun [] "a.missing.key" none = "a.missing.key" :=
  t_missing_key_returns_key [] "a.missing.key" rfl

/-- C9: the fallback-to-key path fires only when the lookup is strictly
undefined: a stored translation is returned as-is even when it is the
empty string (with or without a replacements argument the result is
then empty, not the key). -/
theorem t_empty_translation_not_key :
    ∀ (view : List (String × String)) (key : String),
      (∀ s, alGet view key = some s → tFun view key none = s)
      ∧ ∀ repl, alGet view key = some "" → tFun view key repl = "" := by
  intro view key
  constructor
  · intro s h
    rw [tFun, h]
  · intro repl h
    cases repl with
    | none => rw [tFun, h]
    | some r => rw [tFun, h]; rfl

theorem t_empty_translation_not_key_witness :
    tFun [("k", "")] "k" none = ""
    ∧ tFun [("k", "")] "k" (some [("x", JSVal.str "y")]) = "" :=
  ⟨(t_empty_translation_not_key [("k", "")] "k").1 "" rfl,
    (t_empty_translation_not_key [("k", "")] "k").2
      (some [("x", JSVal.str "y")]) rfl⟩

/-- C10: under the spec's synchronous store contract, every
extendTranslations call — with an empty batch list included — writes
the unchanged current locale value back to the locale cell: the value
is delivered to the locale subscribers once more and, in a browser,
re-persisted under the storage key, while the active locale value
itself stays the same. -/
theorem extend_rewrites_unchanged_locale :
    ∀ (cfg : Config) (browser : Bool) (st : StoreState)
      (bs : List PartialEntryMap),
      (extendTranslations cfg browser st bs).localeVal = st.localeVal
      ∧ (extendTranslations cfg browser st bs).localeLog
          = st.localeLog ++ [st.localeVal]
      ∧ (browser = true →
          (extendTranslations cfg browser st bs).storage
            = alSet st.storage cfg.localStorageKey st.localeVal) := by
  intro cfg browser st bs
  by_cases h : alHas (extendTable cfg.supportedLocales st.translations bs)
      st.localeVal <;>
    cases browser <;>
      simp [extendTranslations, localeSet, notifyLocale, subscriberBody, h]

theorem extend_rewrites_unchanged_locale_witness :
    (extendTranslations cfgEx true stEx []).localeVal = stEx.localeVal
    ∧ (extendTranslations cfgEx true stEx []).localeLog
        = stEx.localeLog ++ [stEx.localeVal]
    ∧ (extendTranslations cfgEx true stEx []).storage
        = alSet stEx.storage cfgEx.localStorageKey stEx.localeVal := by
  have h := extend_rewrites_unchanged_locale cfgEx true stEx []
  exact ⟨h.1, h.2.1, h.2.2 rfl⟩

end TinyI18n
